import Mathlib

/-!
# Verification of the kaspad consensus-core specification

Shallow embedding of the parts of the kaspad sources that the specification
claims talk about, together with proofs (or refutations) of those claims.

Conventions:
* Go maps are modelled as association lists whose list order stands in for
  Go's (unspecified) map-iteration order; theorems that depend on a map scan
  quantify over that order.
* Hashes, block-node handles, transaction IDs and addresses are modelled as
  naturals; outpoints as pairs (transaction id, output index).
* Machine integers use `Nat`/`Int` with an explicit modulus where the Go code
  can overflow (`uint8` arithmetic in GHOSTDAG, `uint64` blue scores).
* Fallible Go functions return `Option`/`Except`; a Go panic is `none`.
-/

/-! ## Association-list primitives (Go map model) -/

/-- Lookup in an association list: the value of the first pair whose key
matches, mirroring Go map indexing. -/
def lookupA {α β : Type} [DecidableEq α] (key : α) : List (α × β) → Option β
  | [] => none
  | (k, v) :: rest => if k = key then some v else lookupA key rest

/-- Go map assignment `m[key] = v`: replace the first binding of `key`
in place, or append a fresh binding. -/
def insertA {α β : Type} [DecidableEq α] (key : α) (v : β) : List (α × β) → List (α × β)
  | [] => [(key, v)]
  | (k, w) :: rest => if k = key then (key, v) :: rest else (k, w) :: insertA key v rest

/-- Go map deletion `delete(m, key)`. -/
def removeA {α β : Type} [DecidableEq α] (key : α) : List (α × β) → List (α × β)
  | [] => []
  | (k, w) :: rest => if k = key then rest else (k, w) :: removeA key rest

theorem lookupA_insertA_self {α β : Type} [DecidableEq α] (key : α) (v : β)
    (l : List (α × β)) : lookupA key (insertA key v l) = some v := by
  induction l with
  | nil => simp [insertA, lookupA]
  | cons p rest ih =>
    obtain ⟨k, w⟩ := p
    by_cases h : k = key <;> simp [insertA, lookupA, h, ih]

theorem lookupA_insertA_ne {α β : Type} [DecidableEq α] {key k2 : α} (v : β)
    (l : List (α × β)) (h : k2 ≠ key) :
    lookupA k2 (insertA key v l) = lookupA k2 l := by
  induction l with
  | nil =>
    simp only [insertA, lookupA]
    rw [if_neg fun hc => h hc.symm]
  | cons p rest ih =>
    obtain ⟨k, w⟩ := p
    by_cases hk : k = key
    · subst hk
      simp only [insertA, if_pos rfl, lookupA]
      rw [if_neg fun hc => h hc.symm, if_neg fun hc => h hc.symm]
    · simp [insertA, lookupA, hk, ih]

theorem mem_insertA {α β : Type} [DecidableEq α] {key : α} {v : β}
    {l : List (α × β)} {p : α × β} (h : p ∈ insertA key v l) :
    p = (key, v) ∨ p ∈ l := by
  induction l with
  | nil => simpa [insertA] using h
  | cons q rest ih =>
    obtain ⟨k, w⟩ := q
    by_cases hk : k = key
    · subst hk
      rcases List.mem_cons.mp (by simpa [insertA] using h) with h1 | h1
      · exact Or.inl h1
      · exact Or.inr (List.mem_cons.mpr (Or.inr h1))
    · rcases List.mem_cons.mp (by simpa [insertA, hk] using h) with h1 | h1
      · exact Or.inr (List.mem_cons.mpr (Or.inl h1))
      · rcases ih h1 with h2 | h2
        · exact Or.inl h2
        · exact Or.inr (List.mem_cons.mpr (Or.inr h2))

/-! ## C9 — connection manager `checkIncomingConnections` (src/kaspad.go 358-374)

The Go code returns immediately when `len(connSet) ≤ maxIncoming`; otherwise it
ranges over the whole set, disconnecting and removing every connection.
The function below returns (remaining connections, disconnected connections);
`connSet.remove` is modelled by a filter on the connection itself. -/

def checkIncomingConnections (maxIncoming : Nat) (connSet : List Nat) :
    List Nat × List Nat :=
  if connSet.length ≤ maxIncoming then (connSet, [])
  else
    connSet.foldl
      (fun acc c => (acc.1.filter (fun x => x ≠ c), acc.2 ++ [c]))
      (connSet, [])

/-- C9: with `maxIncoming = 1` and two incoming connections the code
disconnects *both* of them, leaving zero connected, whereas the claim demands
that exactly one (the excess) be disconnected, leaving one connected.
This evaluates the embedded source at the failing input. -/
theorem checkIncomingConnections_evicts_all :
    checkIncomingConnections 1 [1, 2] = ([], [1, 2]) ∧
    ([] : List Nat).length ≠ 2 - 1 := by decide

/-! ## C8 / C10 — `OnNewBlock` broadcast-list construction (src/protocol/blocks.go 28-41)

`txIDsToBroadcast := make([]*daghash.TxID, n+m)` (all nil), the first `n`
cells are filled with the accepted transactions' IDs, and then
`copy(txIDsToBroadcast[n:], txIDsToBroadcast)` copies the first `m` cells of
the *same* slice onto its tail (Go `copy` has memmove semantics: the
destination receives the source's old values). `none` models a nil pointer.
The rebroadcast IDs are never written into the slice — only their count is
used. -/

def buildTxIDsToBroadcast (accepted rebroadcast : List Nat) : List (Option Nat) :=
  let slice1 : List (Option Nat) :=
    accepted.map some ++ List.replicate rebroadcast.length none
  slice1.take accepted.length ++ slice1.take rebroadcast.length

/-- The tail of `OnNewBlock` (when not in IBD): build the ID slice, then
re-slice it to `wire.MaxInvPerTxInvMsg` elements. The re-slice
`txIDsToBroadcast[:maxInv]` panics (`none`) unless `maxInv` is at most the
slice's capacity, which is `len(accepted)+len(rebroadcast)` from `make`. -/
def onNewBlockRelay (maxInv : Nat) (accepted rebroadcast : List Nat) :
    Option (List (Option Nat)) :=
  let txIDs := buildTxIDsToBroadcast accepted rebroadcast
  if maxInv ≤ accepted.length + rebroadcast.length then some (txIDs.take maxInv)
  else none

/-- C8: with one accepted transaction (ID 1) and one rebroadcast ID (2), the
constructed list is `[1, 1]` — the accepted ID duplicated — not the claimed
`[accepted IDs ++ rebroadcast IDs] = [1, 2]`. Evaluates the embedded source
at the failing input. -/
theorem onNewBlock_drops_rebroadcast_ids :
    buildTxIDsToBroadcast [1] [2] = [some 1, some 1] ∧
    buildTxIDsToBroadcast [1] [2] ≠ [some 1, some 2] := by decide

/-- C10: the non-IBD tail of `OnNewBlock` panics (slice bound violation,
modelled by `none`) exactly when the total number of IDs — accepted plus
rebroadcast — is smaller than `wire.MaxInvPerTxInvMsg` (the parameter
`maxInv`), and completes without panic exactly when the total reaches it. -/
theorem onNewBlockRelay_panics_iff_total_small
    (maxInv : Nat) (accepted rebroadcast : List Nat) :
    onNewBlockRelay maxInv accepted rebroadcast = none ↔
      accepted.length + rebroadcast.length < maxInv := by
  unfold onNewBlockRelay
  by_cases h : maxInv ≤ accepted.length + rebroadcast.length
  · simp [h, Nat.not_lt.mpr h]
  · simp [h, Nat.lt_of_not_le h]

/-! ## C7 — orphan pool `addOrphanBlock` (src/consensus/blockdag/dag.go 379-431)

An orphan is (hash, block timestamp, expiration time), times in milliseconds.
The pool (Go map hash → orphan) is a list in iteration order; `newest0` is the
incoming `dag.newestOrphan` field. -/

structure OrphanM where
  hash : Nat
  timestamp : Int
  expiration : Int
deriving DecidableEq

/-- `maxOrphanBlocks = 100` (src/consensus/blockdag/dag.go 48). -/
def maxOrphanBlocks : Nat := 100

/-- The newest-orphan update performed inside the scan loop:
`if dag.newestOrphan == nil || oBlock.block.Timestamp().After(newest.block.Timestamp())`. -/
def newestUpd (nw : Option OrphanM) (o : OrphanM) : Option OrphanM :=
  match nw with
  | none => some o
  | some w => if o.timestamp > w.timestamp then some o else some w

/-- The scan at the top of `addOrphanBlock`: remove expired orphans
(`mstime.Now().After(oBlock.expiration)`), update the newest-orphan pointer
over the survivors. Returns (remaining pool, newest pointer). -/
def orphanScan (now : Int) (pool : List OrphanM) (newest0 : Option OrphanM) :
    List OrphanM × Option OrphanM :=
  pool.foldl
    (fun acc o =>
      if now > o.expiration then acc else (acc.1 ++ [o], newestUpd acc.2 o))
    ([], newest0)

/-- `addOrphanBlock`: scan/clean the pool, then, if adding would exceed
`maxOrphanBlocks`, either drop the new block (when it is newer than the newest
pooled orphan) or evict the newest orphan (resetting `dag.newestOrphan` to
nil); finally insert the block with expiration one hour (3600000 ms) from now.
`none` models the nil-pointer dereference that Go would hit if the pool
overflowed while `newestOrphan` is nil. -/
def addOrphanBlock (now : Int) (pool : List OrphanM) (newest0 : Option OrphanM)
    (blk : OrphanM) : Option (List OrphanM × Option OrphanM) :=
  let scanned := orphanScan now pool newest0
  let kept := scanned.1
  let newest := scanned.2
  if kept.length + 1 > maxOrphanBlocks then
    match newest with
    | none => none
    | some nw =>
      if blk.timestamp > nw.timestamp then some (kept, newest)
      else
        let kept2 := kept.filter (fun o => o.hash ≠ nw.hash)
        some (kept2 ++ [{ blk with expiration := now + 3600000 }], none)
  else some (kept ++ [{ blk with expiration := now + 3600000 }], newest)

theorem foldl_newestUpd_some (l : List OrphanM) (w : OrphanM) :
    ∃ x, l.foldl newestUpd (some w) = some x ∧ w.timestamp ≤ x.timestamp := by
  induction l generalizing w with
  | nil => exact ⟨w, rfl, le_refl _⟩
  | cons o t ih =>
    simp only [List.foldl_cons, newestUpd]
    by_cases h : o.timestamp > w.timestamp
    · obtain ⟨x, hx, hts⟩ := ih o
      exact ⟨x, by simpa [h] using hx, le_trans (le_of_lt h) hts⟩
    · obtain ⟨x, hx, hts⟩ := ih w
      exact ⟨x, by simpa [h] using hx, hts⟩

theorem foldl_newestUpd_mem (l : List OrphanM) :
    ∀ (nw0 : Option OrphanM) (x : OrphanM), l.foldl newestUpd nw0 = some x →
      x ∈ l ∨ nw0 = some x := by
  induction l with
  | nil => exact fun nw0 x h => Or.inr h
  | cons o t ih =>
    intro nw0 x h
    simp only [List.foldl_cons] at h
    rcases ih (newestUpd nw0 o) x h with h1 | h1
    · exact Or.inl (List.mem_cons.mpr (Or.inr h1))
    · cases nw0 with
      | none =>
        simp only [newestUpd] at h1
        exact Or.inl (List.mem_cons.mpr (Or.inl (Option.some_inj.mp h1).symm))
      | some w =>
        simp only [newestUpd] at h1
        by_cases hts : o.timestamp > w.timestamp
        · rw [if_pos hts] at h1
          exact Or.inl (List.mem_cons.mpr (Or.inl (Option.some_inj.mp h1).symm))
        · rw [if_neg hts] at h1
          exact Or.inr h1

theorem foldl_newestUpd_ub (l : List OrphanM) :
    ∀ (nw0 : Option OrphanM) (x : OrphanM), l.foldl newestUpd nw0 = some x →
      ∀ o ∈ l, o.timestamp ≤ x.timestamp := by
  induction l with
  | nil => intro nw0 x _ o ho; cases ho
  | cons o t ih =>
    intro nw0 x h p hp
    simp only [List.foldl_cons] at h
    rcases List.mem_cons.mp hp with hp | hp
    · subst hp
      have hsome : ∃ w, newestUpd nw0 p = some w ∧ p.timestamp ≤ w.timestamp := by
        cases nw0 with
        | none => exact ⟨p, rfl, le_refl _⟩
        | some w =>
          simp only [newestUpd]
          by_cases hts : p.timestamp > w.timestamp
          · exact ⟨p, by simp [hts], le_refl _⟩
          · exact ⟨w, by simp [hts], le_of_not_lt hts⟩
      obtain ⟨w, hw, hpw⟩ := hsome
      rw [hw] at h
      obtain ⟨x2, hx2, hwx⟩ := foldl_newestUpd_some t w
      rw [hx2] at h
      exact le_trans hpw (le_trans hwx (le_of_eq (congrArg OrphanM.timestamp
        (Option.some_inj.mp h))))
    · exact ih (newestUpd nw0 o) x h p hp

/-- When nothing is expired, the scan keeps the whole pool and its newest
pointer is the `newestUpd`-fold over the pool. -/
theorem orphanScan_no_expiry (now : Int) (pool : List OrphanM)
    (hexp : ∀ o ∈ pool, ¬ now > o.expiration) :
    ∀ (acc1 : List OrphanM) (acc2 : Option OrphanM),
      pool.foldl
        (fun acc o =>
          if now > o.expiration then acc else (acc.1 ++ [o], newestUpd acc.2 o))
        (acc1, acc2) = (acc1 ++ pool, pool.foldl newestUpd acc2) := by
  induction pool with
  | nil => intro acc1 acc2; simp
  | cons o t ih =>
    intro acc1 acc2
    have ho : ¬ now > o.expiration := hexp o (List.mem_cons.mpr (Or.inl rfl))
    have ht : ∀ p ∈ t, ¬ now > p.expiration :=
      fun p hp => hexp p (List.mem_cons.mpr (Or.inr hp))
    simp only [List.foldl_cons, if_neg ho]
    rw [ih ht]
    simp

/-- Removing one element with a unique hash from the pool. -/
theorem filter_hash_length (pool : List OrphanM) (nw : OrphanM)
    (hmem : nw ∈ pool) (hnd : (pool.map OrphanM.hash).Nodup) :
    (pool.filter (fun o => o.hash ≠ nw.hash)).length = pool.length - 1 := by
  induction pool with
  | nil => cases hmem
  | cons o t ih =>
    have hnd2 : o.hash ∉ t.map OrphanM.hash ∧ (t.map OrphanM.hash).Nodup := by
      simpa using hnd
    rcases List.mem_cons.mp hmem with hmem1 | hmem1
    · subst hmem1
      have hkeep : List.filter (fun o2 => decide (o2.hash ≠ nw.hash)) t = t := by
        apply List.filter_eq_self.mpr
        intro a ha
        have hmem2 : a.hash ∈ t.map OrphanM.hash := List.mem_map.mpr ⟨a, ha, rfl⟩
        exact decide_eq_true (fun hc => hnd2.1 (hc ▸ hmem2))
      simp only [List.filter_cons]
      rw [if_neg (by simp)]
      rw [hkeep]
      simp
    · have hone : o.hash ≠ nw.hash := fun hc =>
        hnd2.1 (hc ▸ List.mem_map.mpr ⟨nw, hmem1, rfl⟩)
      have hlen : 1 ≤ t.length := List.length_pos.mpr (List.ne_nil_of_mem hmem1)
      have ht := ih hmem1 hnd2.2
      simp only [List.filter_cons]
      rw [if_pos (decide_eq_true hone)]
      simp only [List.length_cons]
      rw [ht]
      omega

/-- C7: pool at exactly `maxOrphanBlocks`, nothing expired, the cached
newest-orphan pointer either unset or pointing into the pool, and pool hashes
unique (it is a map keyed by hash). Then there is a maximal-timestamp orphan
`nw` such that: a strictly newer block is dropped (pool unchanged); otherwise
`nw` is evicted and the block inserted; and in every case the resulting pool
again has exactly `maxOrphanBlocks` entries. -/
theorem addOrphanBlock_bounded (now : Int) (pool : List OrphanM)
    (newest0 : Option OrphanM) (blk : OrphanM)
    (hlen : pool.length = maxOrphanBlocks)
    (hexp : ∀ o ∈ pool, now ≤ o.expiration)
    (hnw : ∀ x, newest0 = some x → x ∈ pool)
    (hnd : (pool.map OrphanM.hash).Nodup) :
    ∃ nw, nw ∈ pool ∧ (∀ o ∈ pool, o.timestamp ≤ nw.timestamp) ∧
      (blk.timestamp > nw.timestamp →
        addOrphanBlock now pool newest0 blk = some (pool, some nw)) ∧
      (¬ blk.timestamp > nw.timestamp →
        addOrphanBlock now pool newest0 blk =
          some (pool.filter (fun o => o.hash ≠ nw.hash) ++
                  [{ blk with expiration := now + 3600000 }], none)) ∧
      (∀ p nw2, addOrphanBlock now pool newest0 blk = some (p, nw2) →
        p.length = maxOrphanBlocks) := by
  have hexp2 : ∀ o ∈ pool, ¬ now > o.expiration :=
    fun o ho => not_lt.mpr (hexp o ho)
  have hscan : orphanScan now pool newest0 = (pool, pool.foldl newestUpd newest0) := by
    unfold orphanScan
    rw [orphanScan_no_expiry now pool hexp2 [] newest0]
    simp
  have hpoolne : pool ≠ [] := by
    intro hc
    rw [hc] at hlen
    simp [maxOrphanBlocks] at hlen
  have hfsome : ∃ nw, pool.foldl newestUpd newest0 = some nw := by
    cases pool with
    | nil => exact absurd rfl hpoolne
    | cons o t =>
      cases newest0 with
      | none =>
        simp only [List.foldl_cons, newestUpd]
        obtain ⟨x, hx, _⟩ := foldl_newestUpd_some t o
        exact ⟨x, hx⟩
      | some w =>
        obtain ⟨x, hx, _⟩ := foldl_newestUpd_some (o :: t) w
        exact ⟨x, hx⟩
  obtain ⟨nw, hnweq⟩ := hfsome
  have hnwmem : nw ∈ pool := by
    rcases foldl_newestUpd_mem pool newest0 nw hnweq with h | h
    · exact h
    · exact hnw nw h
  have hub : ∀ o ∈ pool, o.timestamp ≤ nw.timestamp :=
    foldl_newestUpd_ub pool newest0 nw hnweq
  have hover : pool.length + 1 > maxOrphanBlocks := by omega
  refine ⟨nw, hnwmem, hub, ?_, ?_, ?_⟩
  · intro hnewer
    unfold addOrphanBlock
    rw [hscan]
    simp [hover, hnweq, hnewer]
  · intro hnotnewer
    unfold addOrphanBlock
    rw [hscan]
    simp [hover, hnweq, hnotnewer]
  · intro p nw2 hres
    by_cases hnewer : blk.timestamp > nw.timestamp
    · unfold addOrphanBlock at hres
      rw [hscan] at hres
      simp only [hover, if_pos, hnweq, hnewer, if_pos] at hres
      have hp : p = pool := (Prod.mk.injEq _ _ _ _).mp (Option.some_inj.mp hres) |>.1.symm
      rw [hp, hlen]
    · unfold addOrphanBlock at hres
      rw [hscan] at hres
      simp only [hover, if_pos, hnweq, hnewer, if_neg] at hres
      have hp : p = pool.filter (fun o => o.hash ≠ nw.hash) ++
          [{ blk with expiration := now + 3600000 }] :=
        ((Prod.mk.injEq _ _ _ _).mp (Option.some_inj.mp hres)).1.symm
      rw [hp]
      rw [List.length_append, filter_hash_length pool nw hnwmem hnd, hlen]
      simp [maxOrphanBlocks]

/-- Concrete instantiation of `addOrphanBlock_bounded`: a pool of 100 orphans
with distinct hashes and timestamps 0..99, no expirations due, and a new
orphan with timestamp 50, which must evict the timestamp-99 orphan. -/
theorem addOrphanBlock_bounded_witness :
    ∃ nw, nw ∈ (List.range 100).map (fun i => OrphanM.mk i (i : Int) 1000000) ∧
      (∀ o ∈ (List.range 100).map (fun i => OrphanM.mk i (i : Int) 1000000),
        o.timestamp ≤ nw.timestamp) ∧
      ((50 : Int) > nw.timestamp →
        addOrphanBlock 0 ((List.range 100).map (fun i => OrphanM.mk i (i : Int) 1000000))
          none (OrphanM.mk 200 50 0) =
          some ((List.range 100).map (fun i => OrphanM.mk i (i : Int) 1000000), some nw)) ∧
      (¬ (50 : Int) > nw.timestamp →
        addOrphanBlock 0 ((List.range 100).map (fun i => OrphanM.mk i (i : Int) 1000000))
          none (OrphanM.mk 200 50 0) =
          some (((List.range 100).map (fun i => OrphanM.mk i (i : Int) 1000000)).filter
                  (fun o => o.hash ≠ nw.hash) ++ [OrphanM.mk 200 50 3600000], none)) ∧
      (∀ p nw2,
        addOrphanBlock 0 ((List.range 100).map (fun i => OrphanM.mk i (i : Int) 1000000))
          none (OrphanM.mk 200 50 0) = some (p, nw2) →
        p.length = maxOrphanBlocks) :=
  addOrphanBlock_bounded 0 _ none (OrphanM.mk 200 50 0)
    (by decide) (by decide) (by intro x h; cases h) (by decide)

/-! ## C5 / C6 — `connectBlock`/`addBlock` pipeline
(src/consensus/blockdag/dag.go 569-604, 640-697, 911-952, 1158-1193)

Errors carry a rule-error code (`common.RuleError`) or are fatal (non-rule).
The DAG state keeps the components the claims talk about: in-memory node
statuses, their persisted (database) copy, the tips set, reachability data,
the full UTXO set and the UTXO-diff store, plus the block counter.
Validation sub-steps whose bodies live outside the embedded sources
(gas limits, script checks, multiset arithmetic, …) are environment
parameters recording only their outcome; the *control flow* joining them is
taken from `connectBlock`/`verifyAndBuildUTXO`/`addBlock`. They are
read-only in the source: none of them mutates DAG state. -/

inductive ConnErr where
  | rule : Nat → ConnErr
  | fatal : ConnErr
deriving DecidableEq

/-- `common.ErrFinality`. -/
def errFinality : Nat := 10

/-- `common.ErrBadUTXOCommitment`. -/
def errBadUTXOCommitment : Nat := 11

/-- `blocknode.StatusValidateFailed`. -/
def statusValidateFailed : Nat := 3

structure NodeC where
  id : Nat
  isGenesis : Bool
  selectedParent : Nat
  utxoCommitment : Nat

structure DagStateC where
  statuses : List (Nat × Nat)
  dbStatuses : List (Nat × Nat)
  tips : List Nat
  reachData : List (Nat × Nat)
  utxoSet : List ((Nat × Nat) × Nat)
  diffStore : List (Nat × Nat)
  blockCount : Nat

structure ConnectEnv where
  isSynced : Bool
  warnRuleActivations : Option ConnErr
  warnVersions : Option ConnErr
  treeAncestor : Nat → Nat → Bool
  lastFinalityPoint : Nat
  gasLimitCheck : Option ConnErr
  pastUTXOStep : Option ConnErr
  acceptedIDMerkleCheck : Option ConnErr
  connectToPastUTXOCheck : Option ConnErr
  multisetCalc : Option ConnErr
  calculatedMultisetHash : Nat
  coinbaseCheck : Option ConnErr
  applyChanges : DagStateC → DagStateC × (List Nat × List Nat)
  saveChanges : DagStateC → Option ConnErr × DagStateC

/-- `isInSelectedParentChainOf` (dag.go 911-919): a node is, by definition,
not in the selected parent chain of itself; otherwise defer to the
reachability tree. -/
def isInSelectedParentChainOfM (treeAncestor : Nat → Nat → Bool)
    (node other : Nat) : Bool :=
  if node = other then false else treeAncestor node other

/-- `checkFinalityViolation` (dag.go 926-952): genesis never violates; a block
whose selected parent *is* the last finality point passes; otherwise the last
finality point must be in the selected parent chain of the selected parent. -/
def checkFinalityViolationM (env : ConnectEnv) (node : NodeC) : Option ConnErr :=
  if node.isGenesis then none
  else if env.lastFinalityPoint = node.selectedParent then none
  else if isInSelectedParentChainOfM env.treeAncestor env.lastFinalityPoint
      node.selectedParent then none
  else some (.rule errFinality)

/-- Error outcome of `verifyAndBuildUTXO` (dag.go 1158-1193): past-UTXO
construction, accepted-ID merkle root check, transaction connection checks and
multiset calculation in source order, then the byte-wise comparison of the
finalized multiset hash against the header's UTXO commitment. -/
def verifyAndBuildUTXOM (env : ConnectEnv) (node : NodeC) : Option ConnErr :=
  match env.pastUTXOStep with
  | some e => some e
  | none =>
  match env.acceptedIDMerkleCheck with
  | some e => some e
  | none =>
  match env.connectToPastUTXOCheck with
  | some e => some e
  | none =>
  match env.multisetCalc with
  | some e => some e
  | none =>
  if env.calculatedMultisetHash = node.utxoCommitment then none
  else some (.rule errBadUTXOCommitment)

/-- `connectBlock` (dag.go 643-697): sync warnings, finality check, gas-limit
check, UTXO verification, coinbase validation, then `applyDAGChanges`
(whose errors panic in Go and are not modelled) and `saveChangesFromBlock`. -/
def connectBlockM (env : ConnectEnv) (st : DagStateC) (node : NodeC) :
    Except ConnErr (DagStateC × (List Nat × List Nat)) :=
  match (if env.isSynced then env.warnRuleActivations else none) with
  | some e => .error e
  | none =>
  match (if env.isSynced then env.warnVersions else none) with
  | some e => .error e
  | none =>
  match checkFinalityViolationM env node with
  | some e => .error e
  | none =>
  match env.gasLimitCheck with
  | some e => .error e
  | none =>
  match verifyAndBuildUTXOM env node with
  | some e => .error e
  | none =>
  match env.coinbaseCheck with
  | some e => .error e
  | none =>
  let applied := env.applyChanges st
  match env.saveChanges applied.1 with
  | (some e, _) => .error e
  | (none, st2) => .ok (st2, applied.2)

def isRuleErrorM : ConnErr → Bool
  | .rule _ => true
  | .fatal => false

/-- `BlockNodeStore.SetStatusFlags` on the in-memory store. -/
def setStatusM (st : DagStateC) (nid status : Nat) : DagStateC :=
  { st with statuses := insertA nid status st.statuses }

/-- `FlushToDB` + `Commit` of the block-node store in its own transaction:
the persisted statuses become the in-memory ones; nothing else is written. -/
def flushStatusesM (st : DagStateC) : DagStateC :=
  { st with dbStatuses := st.statuses }

/-- `addBlock` (dag.go 575-604): connect; on a rule error mark the node
validate-failed and flush that status in its own database transaction before
surfacing the error; on success count the block. -/
def addBlockM (env : ConnectEnv) (st : DagStateC) (node : NodeC) :
    Except ConnErr (List Nat × List Nat) × DagStateC :=
  match connectBlockM env st node with
  | .error e =>
    if isRuleErrorM e then
      (.error e, flushStatusesM (setStatusM st node.id statusValidateFailed))
    else (.error e, st)
  | .ok (st2, chainUpdates) =>
    (.ok chainUpdates, { st2 with blockCount := st2.blockCount + 1 })

/-- C5: (i) for a non-genesis block, `checkFinalityViolation` yields the
Finality rule error exactly when the last finality point is neither the
block's selected parent itself nor in the selected parent chain of that
selected parent; (ii) whenever it yields that error (sync warnings passing),
`addBlock` fails with it, the block is not counted as accepted, and no DAG
state component other than the validate-failed status changes. -/
theorem checkFinalityViolation_iff (env : ConnectEnv) (node : NodeC)
    (st : DagStateC)
    (hgen : node.isGenesis = false)
    (hwarn1 : env.isSynced = true → env.warnRuleActivations = none)
    (hwarn2 : env.isSynced = true → env.warnVersions = none) :
    (checkFinalityViolationM env node = some (.rule errFinality) ↔
      ¬(env.lastFinalityPoint = node.selectedParent ∨
        isInSelectedParentChainOfM env.treeAncestor env.lastFinalityPoint
          node.selectedParent = true)) ∧
    (checkFinalityViolationM env node = some (.rule errFinality) →
      (addBlockM env st node).1 = .error (.rule errFinality) ∧
      (addBlockM env st node).2.blockCount = st.blockCount ∧
      (addBlockM env st node).2.tips = st.tips ∧
      (addBlockM env st node).2.utxoSet = st.utxoSet ∧
      (addBlockM env st node).2.diffStore = st.diffStore ∧
      (addBlockM env st node).2.reachData = st.reachData) := by
  constructor
  · unfold checkFinalityViolationM
    rw [hgen]
    by_cases h1 : env.lastFinalityPoint = node.selectedParent
    · simp [h1]
    · by_cases h2 : isInSelectedParentChainOfM env.treeAncestor
          env.lastFinalityPoint node.selectedParent = true
      · simp [h1, h2]
      · simp [h1, h2]
  · intro hviol
    have hwr : (if env.isSynced then env.warnRuleActivations else none) = none := by
      cases hs : env.isSynced with
      | false => simp
      | true => simp [hwarn1 hs]
    have hwv : (if env.isSynced then env.warnVersions else none) = none := by
      cases hs : env.isSynced with
      | false => simp
      | true => simp [hwarn2 hs]
    have hconn : connectBlockM env st node = .error (.rule errFinality) := by
      unfold connectBlockM
      rw [hwr, hwv, hviol]
    unfold addBlockM
    rw [hconn]
    simp [isRuleErrorM, flushStatusesM, setStatusM]

/-- Environment used by the C5 witness: not synced, ancestry oracle denying
everything, last finality point 7, all abstract steps succeeding. -/
def envFinW : ConnectEnv :=
  { isSynced := false, warnRuleActivations := none, warnVersions := none,
    treeAncestor := fun _ _ => false, lastFinalityPoint := 7,
    gasLimitCheck := none, pastUTXOStep := none,
    acceptedIDMerkleCheck := none, connectToPastUTXOCheck := none,
    multisetCalc := none, calculatedMultisetHash := 0,
    coinbaseCheck := none, applyChanges := fun s => (s, ([], [])),
    saveChanges := fun s => (none, s) }

/-- Node used by the C5 witness: non-genesis, selected parent 8. -/
def nodeFinW : NodeC :=
  { id := 9, isGenesis := false, selectedParent := 8, utxoCommitment := 0 }

/-- State used by the C5 witness. -/
def stFinW : DagStateC := ⟨[], [], [4], [], [], [], 1⟩

/-- Concrete instantiation of `checkFinalityViolation_iff`: a non-genesis
node whose selected parent is not the finality point and an oracle denying
tree ancestry, so the finality violation fires and addBlock rejects. -/
theorem checkFinalityViolation_iff_witness :
    (checkFinalityViolationM envFinW nodeFinW = some (.rule errFinality) ↔
      ¬(envFinW.lastFinalityPoint = nodeFinW.selectedParent ∨
        isInSelectedParentChainOfM envFinW.treeAncestor envFinW.lastFinalityPoint
          nodeFinW.selectedParent = true)) ∧
    (checkFinalityViolationM envFinW nodeFinW = some (.rule errFinality) →
      (addBlockM envFinW stFinW nodeFinW).1 = .error (.rule errFinality) ∧
      (addBlockM envFinW stFinW nodeFinW).2.blockCount = stFinW.blockCount ∧
      (addBlockM envFinW stFinW nodeFinW).2.tips = stFinW.tips ∧
      (addBlockM envFinW stFinW nodeFinW).2.utxoSet = stFinW.utxoSet ∧
      (addBlockM envFinW stFinW nodeFinW).2.diffStore = stFinW.diffStore ∧
      (addBlockM envFinW stFinW nodeFinW).2.reachData = stFinW.reachData) :=
  checkFinalityViolation_iff envFinW nodeFinW stFinW rfl
    (fun h => by cases h) (fun h => by cases h)

/-- C6: when every step before the commitment comparison succeeds but the
finalized multiset hash differs from the header's UTXO commitment, `addBlock`
fails with the BadUTXOCommitment rule error, the node's status is set to
validate-failed both in memory and in the database (flushed in its own
transaction), and tips, reachability data, the UTXO set, the diff store and
the block count are all left untouched. -/
theorem badUTXOCommitment_rejected (env : ConnectEnv) (st : DagStateC)
    (node : NodeC)
    (hwarn1 : env.isSynced = true → env.warnRuleActivations = none)
    (hwarn2 : env.isSynced = true → env.warnVersions = none)
    (hfin : checkFinalityViolationM env node = none)
    (hgas : env.gasLimitCheck = none)
    (hpast : env.pastUTXOStep = none)
    (hmerkle : env.acceptedIDMerkleCheck = none)
    (hconn : env.connectToPastUTXOCheck = none)
    (hms : env.multisetCalc = none)
    (hhash : env.calculatedMultisetHash ≠ node.utxoCommitment) :
    (addBlockM env st node).1 = .error (.rule errBadUTXOCommitment) ∧
    (addBlockM env st node).2.statuses =
      insertA node.id statusValidateFailed st.statuses ∧
    (addBlockM env st node).2.dbStatuses =
      insertA node.id statusValidateFailed st.statuses ∧
    (addBlockM env st node).2.tips = st.tips ∧
    (addBlockM env st node).2.reachData = st.reachData ∧
    (addBlockM env st node).2.utxoSet = st.utxoSet ∧
    (addBlockM env st node).2.diffStore = st.diffStore ∧
    (addBlockM env st node).2.blockCount = st.blockCount := by
  have hwr : (if env.isSynced then env.warnRuleActivations else none) = none := by
    cases hs : env.isSynced with
    | false => simp
    | true => simp [hwarn1 hs]
  have hwv : (if env.isSynced then env.warnVersions else none) = none := by
    cases hs : env.isSynced with
    | false => simp
    | true => simp [hwarn2 hs]
  have hverify : verifyAndBuildUTXOM env node = some (.rule errBadUTXOCommitment) := by
    unfold verifyAndBuildUTXOM
    rw [hpast, hmerkle, hconn, hms, if_neg hhash]
  have hconnect : connectBlockM env st node = .error (.rule errBadUTXOCommitment) := by
    unfold connectBlockM
    rw [hwr, hwv, hfin, hgas, hverify]
  unfold addBlockM
  rw [hconnect]
  simp [isRuleErrorM, flushStatusesM, setStatusM]

/-- Environment used by the C6 witness: every prior check passes, the
computed multiset hash is 5. -/
def envUtxoW : ConnectEnv :=
  { isSynced := false, warnRuleActivations := none, warnVersions := none,
    treeAncestor := fun _ _ => true, lastFinalityPoint := 0,
    gasLimitCheck := none, pastUTXOStep := none,
    acceptedIDMerkleCheck := none, connectToPastUTXOCheck := none,
    multisetCalc := none, calculatedMultisetHash := 5,
    coinbaseCheck := none, applyChanges := fun s => (s, ([], [])),
    saveChanges := fun s => (none, s) }

/-- Node used by the C6 witness: its header commits to 6, not 5. -/
def nodeUtxoW : NodeC :=
  { id := 9, isGenesis := false, selectedParent := 2, utxoCommitment := 6 }

/-- State used by the C6 witness. -/
def stUtxoW : DagStateC :=
  ⟨[(2, 1)], [(2, 1)], [2], [(2, 0)], [((0, 0), 50)], [(2, 0)], 3⟩

/-- Concrete instantiation of `badUTXOCommitment_rejected`: every prior check
passes, the multiset hash is 5 but the header commits to 6. -/
theorem badUTXOCommitment_rejected_witness :
    (addBlockM envUtxoW stUtxoW nodeUtxoW).1 =
      .error (.rule errBadUTXOCommitment) ∧
    (addBlockM envUtxoW stUtxoW nodeUtxoW).2.statuses =
      insertA 9 statusValidateFailed [(2, 1)] ∧
    (addBlockM envUtxoW stUtxoW nodeUtxoW).2.dbStatuses =
      insertA 9 statusValidateFailed [(2, 1)] ∧
    (addBlockM envUtxoW stUtxoW nodeUtxoW).2.tips = [2] ∧
    (addBlockM envUtxoW stUtxoW nodeUtxoW).2.reachData = [(2, 0)] ∧
    (addBlockM envUtxoW stUtxoW nodeUtxoW).2.utxoSet = [((0, 0), 50)] ∧
    (addBlockM envUtxoW stUtxoW nodeUtxoW).2.diffStore = [(2, 0)] ∧
    (addBlockM envUtxoW stUtxoW nodeUtxoW).2.blockCount = 3 :=
  badUTXOCommitment_rejected envUtxoW stUtxoW nodeUtxoW
    (fun h => by cases h) (fun h => by cases h)
    (by decide) rfl rfl rfl rfl rfl (by decide)

/-! ## C4 — UTXO diff algebra
(src/domain/consensus/utils/utxo/utxo_diff.go 27-43; spec §3 "UTXODiff")

`utxo_diff.go` only contains the `WithDiff`/`DiffFrom` wrappers; the
`withDiff`/`diffFrom` bodies they delegate to are not among the sources, so
both are modelled from the spec. Collections are association lists keyed by
outpoint; all reasoning is via `lookupA`, so no key-uniqueness is assumed. -/

structure UTXOEntryM where
  amount : Nat
  blockBlueScore : Nat
  isCoinbase : Bool
deriving DecidableEq

abbrev OutpointM := Nat × Nat

abbrev UTXOCollectionM := List (OutpointM × UTXOEntryM)

/-- Keyed collection difference `a ∖ b`: keep the entries of `a` whose
outpoint does not occur in `b`. -/
def collSub (a b : UTXOCollectionM) : UTXOCollectionM :=
  a.filter (fun p => (lookupA p.1 b).isNone)

/-- Does some outpoint occur in both collections with the same blue score?
(The double-add / double-remove failure condition of the spec.) -/
def hasMatchingBlueScore (a b : UTXOCollectionM) : Bool :=
  a.any (fun p =>
    match lookupA p.1 b with
    | some q => q.blockBlueScore == p.2.blockBlueScore
    | none => false)

structure UTXODiffM where
  toAdd : UTXOCollectionM
  toRemove : UTXOCollectionM
deriving DecidableEq

/-- Modelled from the spec: `withDiff(d, e)` has
`toAdd = (d.toAdd ∖ e.toRemove) ∪ (e.toAdd ∖ d.toRemove)` and
`toRemove = (d.toRemove ∖ e.toAdd) ∪ (e.toRemove ∖ d.toAdd)`, and fails if the
same outpoint with matching blue score appears in both `toAdd`s or in both
`toRemove`s. The implementation (`consensus/utxo`, `domain/.../utxo/diff_algebra`)
is not among the sources. -/
def withDiffM (d e : UTXODiffM) : Option UTXODiffM :=
  if hasMatchingBlueScore d.toAdd e.toAdd || hasMatchingBlueScore d.toRemove e.toRemove
  then none
  else some
    { toAdd := collSub d.toAdd e.toRemove ++ collSub e.toAdd d.toRemove,
      toRemove := collSub d.toRemove e.toAdd ++ collSub e.toRemove d.toAdd }

/-- Modelled from the spec: `diffFrom(d, e)` yields the diff that, composed
with `d`, produces `e` — constructively: undo what `d` did and is not kept by
`e` (`d.toAdd ∖ e.toAdd` gets re-removed, `d.toRemove ∖ e.toRemove` gets
re-added) and do what `e` does beyond `d`. The implementation is not among
the sources. -/
def diffFromM (d e : UTXODiffM) : UTXODiffM :=
  { toAdd := collSub e.toAdd d.toAdd ++ collSub d.toRemove e.toRemove,
    toRemove := collSub e.toRemove d.toRemove ++ collSub d.toAdd e.toAdd }

/-- The empty UTXO diff (`NewUTXODiff`). -/
def emptyDiffM : UTXODiffM := { toAdd := [], toRemove := [] }

/-- Outpoint-disjointness of two collections, decidably. -/
def keysDisjointB (a b : UTXOCollectionM) : Bool :=
  a.all (fun p => (lookupA p.1 b).isNone)

/-- Entry agreement: wherever both collections bind an outpoint, the entry is
the same ("the diff rules": both diffs are taken against one base set). -/
def agreeB (a b : UTXOCollectionM) : Bool :=
  a.all (fun p =>
    match lookupA p.1 b with
    | some q => q == p.2
    | none => true)

theorem lookupA_mem {α β : Type} [DecidableEq α] {k : α} {v : β} :
    ∀ {l : List (α × β)}, lookupA k l = some v → (k, v) ∈ l := by
  intro l
  induction l with
  | nil => intro h; cases h
  | cons p t ih =>
    obtain ⟨k1, v1⟩ := p
    intro h
    by_cases hk : k1 = k
    · subst hk
      simp only [lookupA, if_pos rfl] at h
      exact List.mem_cons.mpr (Or.inl (by rw [Option.some_inj.mp h]))
    · simp only [lookupA, if_neg hk] at h
      exact List.mem_cons.mpr (Or.inr (ih h))

theorem lookupA_isSome_of_mem {α β : Type} [DecidableEq α] {k : α} {v : β} :
    ∀ {l : List (α × β)}, (k, v) ∈ l → (lookupA k l).isSome = true := by
  intro l
  induction l with
  | nil => intro h; cases h
  | cons p t ih =>
    obtain ⟨k1, v1⟩ := p
    intro h
    by_cases hk : k1 = k
    · subst hk; simp [lookupA]
    · rcases List.mem_cons.mp h with h1 | h1
      · exact absurd (congrArg Prod.fst h1).symm hk
      · simpa [lookupA, hk] using ih h1

theorem lookupA_append {α β : Type} [DecidableEq α] (k : α) (x y : List (α × β)) :
    lookupA k (x ++ y) =
      if (lookupA k x).isSome then lookupA k x else lookupA k y := by
  induction x with
  | nil => simp [lookupA]
  | cons p t ih =>
    obtain ⟨k1, v1⟩ := p
    by_cases hk : k1 = k
    · subst hk; simp [lookupA]
    · simpa [lookupA, hk] using ih

theorem lookupA_collSub (k : OutpointM) (a b : UTXOCollectionM) :
    lookupA k (collSub a b) =
      if (lookupA k b).isSome then none else lookupA k a := by
  induction a with
  | nil => simp [collSub, lookupA]
  | cons p t ih =>
    obtain ⟨k1, v1⟩ := p
    by_cases hk : k1 = k
    · subst hk
      cases hb : lookupA k1 b with
      | none => simp [collSub, lookupA, hb]
      | some w => simpa [collSub, lookupA, hb] using ih
    · cases hb : lookupA k1 b with
      | none => simpa [collSub, lookupA, hb, hk] using ih
      | some w => simpa [collSub, lookupA, hb, hk] using ih

theorem keysDisjointB_spec {a b : UTXOCollectionM} (h : keysDisjointB a b = true)
    {k : OutpointM} {v : UTXOEntryM} (hk : lookupA k a = some v) :
    lookupA k b = none := by
  have hmem := lookupA_mem hk
  have := List.all_eq_true.mp h (k, v) hmem
  simpa [Option.isNone_iff_eq_none] using this

theorem agreeB_spec {a b : UTXOCollectionM} (h : agreeB a b = true)
    {k : OutpointM} {v w : UTXOEntryM} (hv : lookupA k a = some v)
    (hw : lookupA k b = some w) : v = w := by
  have hmem := lookupA_mem hv
  have hcond := List.all_eq_true.mp h (k, v) hmem
  rw [hw] at hcond
  exact (eq_of_beq (by simpa using hcond)).symm

theorem hasMatchingBlueScore_false {a b : UTXOCollectionM}
    (h : ∀ p ∈ a, lookupA p.1 b = none) : hasMatchingBlueScore a b = false := by
  unfold hasMatchingBlueScore
  induction a with
  | nil => rfl
  | cons p t ih =>
    have hp := h p (List.mem_cons.mpr (Or.inl rfl))
    simp only [List.any_cons, hp]
    exact ih (fun q hq => h q (List.mem_cons.mpr (Or.inr hq)))

theorem hasMatchingBlueScore_nil (a : UTXOCollectionM) :
    hasMatchingBlueScore a [] = false :=
  hasMatchingBlueScore_false (fun _ _ => rfl)

/-- C4: for diffs `d`, `e` obeying the diff rules (each internally consistent,
`d.toAdd` disjoint from `e.toRemove`, `d.toRemove` disjoint from `e.toAdd`,
and agreeing entries where both add or both remove an outpoint),
`withDiff(d, diffFrom(d, e))` succeeds and equals `e` as a map on both
components; and for every diff `g`, `withDiff(g, empty) = g`. -/
theorem utxo_diff_algebra (d e : UTXODiffM)
    (h1 : keysDisjointB d.toAdd d.toRemove = true)
    (h2 : keysDisjointB e.toAdd e.toRemove = true)
    (h3 : keysDisjointB d.toAdd e.toRemove = true)
    (h4 : keysDisjointB d.toRemove e.toAdd = true)
    (h5 : agreeB d.toAdd e.toAdd = true)
    (h6 : agreeB d.toRemove e.toRemove = true) :
    (∃ f, withDiffM d (diffFromM d e) = some f ∧
      (∀ op, lookupA op f.toAdd = lookupA op e.toAdd) ∧
      (∀ op, lookupA op f.toRemove = lookupA op e.toRemove)) ∧
    (∀ g : UTXODiffM, withDiffM g emptyDiffM = some g) := by
  constructor
  · have hnomatch1 : hasMatchingBlueScore d.toAdd (diffFromM d e).toAdd = false := by
      apply hasMatchingBlueScore_false
      intro p hp
      have hda : (lookupA p.1 d.toAdd).isSome = true := lookupA_isSome_of_mem hp
      obtain ⟨v, hv⟩ := Option.isSome_iff_exists.mp hda
      have hdr : lookupA p.1 d.toRemove = none := keysDisjointB_spec h1 hv
      simp only [diffFromM, lookupA_append, lookupA_collSub, hda, hdr]
      simp
    have hnomatch2 : hasMatchingBlueScore d.toRemove (diffFromM d e).toRemove = false := by
      apply hasMatchingBlueScore_false
      intro p hp
      have hdr : (lookupA p.1 d.toRemove).isSome = true := lookupA_isSome_of_mem hp
      obtain ⟨v, hv⟩ := Option.isSome_iff_exists.mp hdr
      have hda : lookupA p.1 d.toAdd = none := by
        cases hda2 : lookupA p.1 d.toAdd with
        | none => rfl
        | some w => exact absurd hv (by simp [keysDisjointB_spec h1 hda2])
      simp only [diffFromM, lookupA_append, lookupA_collSub, hdr, hda]
      simp
    refine ⟨_, by rw [withDiffM, hnomatch1, hnomatch2]; rfl, ?_, ?_⟩
    · intro op
      rcases hda : lookupA op d.toAdd with _ | v <;>
        rcases hdr : lookupA op d.toRemove with _ | v2 <;>
        rcases hea : lookupA op e.toAdd with _ | w <;>
        rcases her : lookupA op e.toRemove with _ | w2
      all_goals try exact Option.noConfusion (hdr.symm.trans (keysDisjointB_spec h1 hda))
      all_goals try exact Option.noConfusion (her.symm.trans (keysDisjointB_spec h3 hda))
      all_goals try exact Option.noConfusion (hea.symm.trans (keysDisjointB_spec h4 hdr))
      all_goals try exact Option.noConfusion (her.symm.trans (keysDisjointB_spec h2 hea))
      all_goals
        simp [diffFromM, lookupA_append, lookupA_collSub, hda, hdr, hea, her]
      all_goals try exact agreeB_spec h5 hda hea
    · intro op
      rcases hda : lookupA op d.toAdd with _ | v <;>
        rcases hdr : lookupA op d.toRemove with _ | v2 <;>
        rcases hea : lookupA op e.toAdd with _ | w <;>
        rcases her : lookupA op e.toRemove with _ | w2
      all_goals try exact Option.noConfusion (hdr.symm.trans (keysDisjointB_spec h1 hda))
      all_goals try exact Option.noConfusion (her.symm.trans (keysDisjointB_spec h3 hda))
      all_goals try exact Option.noConfusion (hea.symm.trans (keysDisjointB_spec h4 hdr))
      all_goals try exact Option.noConfusion (her.symm.trans (keysDisjointB_spec h2 hea))
      all_goals
        simp [diffFromM, lookupA_append, lookupA_collSub, hda, hdr, hea, her]
      all_goals try exact agreeB_spec h6 hdr her
  · intro g
    obtain ⟨ga, gr⟩ := g
    rw [withDiffM]
    simp only [emptyDiffM, hasMatchingBlueScore_nil, Bool.or_self]
    rw [if_neg (by simp)]
    simp only [collSub, lookupA]
    congr 1 <;> simp [List.filter_eq_self.mpr]

/-- Diffs used by the C4 witness: `dW` adds outpoint (1,0) and removes (2,0);
`eW` adds (3,0) and removes the same (2,0) entry — both against one base. -/
def dW : UTXODiffM :=
  { toAdd := [((1, 0), ⟨5, 1, false⟩)], toRemove := [((2, 0), ⟨7, 2, false⟩)] }

/-- Second diff of the C4 witness. -/
def eW : UTXODiffM :=
  { toAdd := [((3, 0), ⟨9, 3, true⟩)], toRemove := [((2, 0), ⟨7, 2, false⟩)] }

/-- Concrete instantiation of `utxo_diff_algebra` at `dW`, `eW`: the diff
rules hold by computation and the round-trip and unit laws follow. -/
theorem utxo_diff_algebra_witness :
    (∃ f, withDiffM dW (diffFromM dW eW) = some f ∧
      (∀ op, lookupA op f.toAdd = lookupA op eW.toAdd) ∧
      (∀ op, lookupA op f.toRemove = lookupA op eW.toRemove)) ∧
    (∀ g : UTXODiffM, withDiffM g emptyDiffM = some g) :=
  utxo_diff_algebra dW eW (by decide) (by decide) (by decide) (by decide)
    (by decide) (by decide)

/-! ## C1 — past-UTXO construction over blue blocks
(src/consensus/blockdag/dag.go 1223-1263 `applyBlueBlocks`)

A transaction carries its ID, coinbase flag, input outpoints and output
amounts. The UTXO set in flight is an association list of outpoint → entry
(the diff-set base/diff split of `DiffUTXOSet` does not affect membership
and is not needed by the claim). -/

structure TxM where
  id : Nat
  isCoinBase : Bool
  txIns : List OutpointM
  txOuts : List Nat
deriving DecidableEq

structure TxAcceptanceDataM where
  tx : TxM
  isAccepted : Bool
deriving DecidableEq

/-- Does the set contain every input's referenced outpoint? -/
def containsInputs (s : UTXOCollectionM) (tx : TxM) : Bool :=
  tx.txIns.all (fun op => (lookupA op s).isSome)

/-- Modelled from the spec: `consensus/utxo` `DiffUTXOSet.AddTx` is not among
the sources. Per the spec (§4.4), a transaction is applied iff every input's
referenced outpoint exists in the set (a kaspad coinbase has no inputs, so it
always applies); applying removes the spent outpoints and adds each output as
a UTXO entry carrying the accepting block's blue score and the coinbase flag.
Returns (isAccepted, updated set). -/
def addTx (s : UTXOCollectionM) (tx : TxM) (blockBlueScore : Nat) :
    Bool × UTXOCollectionM :=
  if containsInputs s tx then
    let afterSpend := tx.txIns.foldl (fun acc op => removeA op acc) s
    (true,
      tx.txOuts.enum.foldl
        (fun acc iv =>
          insertA (tx.id, iv.1) ⟨iv.2, blockBlueScore, tx.isCoinBase⟩ acc)
        afterSpend)
  else (false, s)

/-- Inner loop of `applyBlueBlocks`: transactions of one blue block in block
order. A coinbase of a non-selected-parent blue is unaccepted without
touching the set; otherwise `AddTx` decides and records acceptance. -/
def applyTxs (nodeBlueScore : Nat) (isSelectedParent : Bool) :
    List TxM → UTXOCollectionM → UTXOCollectionM × List TxAcceptanceDataM
  | [], u => (u, [])
  | tx :: rest, u =>
    let res :=
      if !isSelectedParent && tx.isCoinBase then (false, u)
      else addTx u tx nodeBlueScore
    let rem := applyTxs nodeBlueScore isSelectedParent rest res.2
    (rem.1, ⟨tx, res.1⟩ :: rem.2)

/-- Outer loop of `applyBlueBlocks`: blue blocks in blues order, the index
`i` counting from the start (`isSelectedParent := i == 0`). -/
def applyBlueBlocksLoop (nodeBlueScore : Nat) :
    Nat → List (List TxM) → UTXOCollectionM →
      UTXOCollectionM × List (List TxAcceptanceDataM)
  | _, [], u => (u, [])
  | i, blk :: rest, u =>
    let r1 := applyTxs nodeBlueScore (i == 0) blk u
    let r2 := applyBlueBlocksLoop nodeBlueScore (i + 1) rest r1.1
    (r2.1, r1.2 :: r2.2)

/-- `applyBlueBlocks node selectedParentPastUTXO blueBlocks`: returns the new
past-UTXO and the per-block transaction acceptance data. -/
def applyBlueBlocks (nodeBlueScore : Nat) (selectedParentPastUTXO : UTXOCollectionM)
    (blueBlocks : List (List TxM)) :
    UTXOCollectionM × List (List TxAcceptanceDataM) :=
  applyBlueBlocksLoop nodeBlueScore 0 blueBlocks selectedParentPastUTXO

/-- The accumulating past-UTXO at the moment transaction `j` of blue block
`i` is processed: replay all earlier blocks and the first `j` transactions of
block `i`. -/
def utxoBefore (nodeBlueScore : Nat) (selectedParentPastUTXO : UTXOCollectionM)
    (blueBlocks : List (List TxM)) (i j : Nat) : UTXOCollectionM :=
  (applyTxs nodeBlueScore (i == 0) ((blueBlocks.getD i []).take j)
    (applyBlueBlocksLoop nodeBlueScore 0 (blueBlocks.take i)
      selectedParentPastUTXO).1).1

theorem addTx_fst (s : UTXOCollectionM) (tx : TxM) (bs : Nat) :
    (addTx s tx bs).1 = containsInputs s tx := by
  unfold addTx
  by_cases h : containsInputs s tx = true <;> simp [h]

theorem applyTxs_get (bs : Nat) (isSP : Bool) :
    ∀ (txs : List TxM) (u : UTXOCollectionM) (j : Nat) (tx : TxM),
      txs[j]? = some tx →
      (applyTxs bs isSP txs u).2[j]? =
        some ⟨tx, (!(!isSP && tx.isCoinBase)) &&
          containsInputs ((applyTxs bs isSP (txs.take j) u).1) tx⟩ := by
  intro txs
  induction txs with
  | nil => intro u j tx h; cases h
  | cons tx0 rest ih =>
    intro u j tx h
    cases j with
    | zero =>
      have htx : tx0 = tx := by simpa using h
      subst htx
      by_cases hc : (!isSP && tx0.isCoinBase) = true
      · simp [applyTxs, hc]
      · have hc2 : (!isSP && tx0.isCoinBase) = false := by
          simpa using hc
        simp [applyTxs, hc2, addTx_fst]
    | succ j2 =>
      have h2 : rest[j2]? = some tx := by simpa using h
      have hstep := ih (if !isSP && tx0.isCoinBase then (false, u)
        else addTx u tx0 bs).2 j2 tx h2
      simpa [applyTxs] using hstep

theorem applyBlueBlocksLoop_get (bs : Nat) :
    ∀ (blocks : List (List TxM)) (i0 : Nat) (u : UTXOCollectionM)
      (i : Nat) (blk : List TxM),
      blocks[i]? = some blk →
      (applyBlueBlocksLoop bs i0 blocks u).2[i]? =
        some (applyTxs bs ((i0 + i) == 0) blk
          (applyBlueBlocksLoop bs i0 (blocks.take i) u).1).2 := by
  intro blocks
  induction blocks with
  | nil => intro i0 u i blk h; cases h
  | cons blk0 rest ih =>
    intro i0 u i blk h
    cases i with
    | zero =>
      have hblk : blk0 = blk := by simpa using h
      subst hblk
      simp [applyBlueBlocksLoop]
    | succ i2 =>
      have h2 : rest[i2]? = some blk := by simpa using h
      have hstep := ih (i0 + 1)
        (applyTxs bs (i0 == 0) blk0 u).1 i2 blk h2
      have harith : i0 + 1 + i2 = i0 + (i2 + 1) := by omega
      rw [harith] at hstep
      simpa [applyBlueBlocksLoop] using hstep

/-- C1: in `applyBlueBlocks` (blues order, selected parent first,
transactions in block order), the acceptance flag recorded for transaction
`j` of blue block `i` is true iff the transaction is not a coinbase of a
non-selected-parent blue (`i ≠ 0`) and every one of its inputs' referenced
outpoints exists in the accumulating past-UTXO at the moment it is processed.
A later transaction spending an outpoint consumed earlier in the same scan is
therefore recorded unaccepted, with no error raised. -/
theorem applyBlueBlocks_acceptance (bs : Nat) (sp : UTXOCollectionM)
    (blocks : List (List TxM)) (i j : Nat) (blk : List TxM) (tx : TxM)
    (hi : blocks[i]? = some blk) (hj : blk[j]? = some tx) :
    ((applyBlueBlocks bs sp blocks).2[i]?.bind (fun l => l[j]?)) =
      some ⟨tx, (!(!(i == 0) && tx.isCoinBase)) &&
        containsInputs (utxoBefore bs sp blocks i j) tx⟩ := by
  have houter := applyBlueBlocksLoop_get bs blocks 0 sp i blk hi
  have hzero : ((0 + i) == 0) = (i == 0) := by
    cases i <;> simp
  rw [hzero] at houter
  have hinner := applyTxs_get bs (i == 0) blk
    (applyBlueBlocksLoop bs 0 (blocks.take i) sp).1 j tx hj
  unfold applyBlueBlocks
  rw [houter]
  rw [Option.some_bind]
  rw [hinner]
  have hgd : blocks.getD i [] = blk := by
    simp [List.getD, hi]
  rw [utxoBefore, hgd]

/-- C1 witness fixture: selected-parent past-UTXO holding one outpoint (5,0). -/
def spC1W : UTXOCollectionM := [((5, 0), ⟨10, 0, false⟩)]

/-- C1 witness fixture: first transaction, spending (5,0). -/
def tx1C1W : TxM := ⟨100, false, [(5, 0)], [7]⟩

/-- C1 witness fixture: second transaction, also spending (5,0). -/
def tx2C1W : TxM := ⟨101, false, [(5, 0)], [8]⟩

/-- Concrete instantiation of `applyBlueBlocks_acceptance` at the
double-spend scenario: two transactions of one blue block both spend (5,0);
the acceptance flag of the second is governed by the accumulating state, and
evaluates to false (second conjunct) while no error is raised. -/
theorem applyBlueBlocks_acceptance_witness :
    (((applyBlueBlocks 1 spC1W [[tx1C1W, tx2C1W]]).2[0]?.bind (fun l => l[1]?)) =
      some ⟨tx2C1W, (!(!((0 : Nat) == 0) && tx2C1W.isCoinBase)) &&
        containsInputs (utxoBefore 1 spC1W [[tx1C1W, tx2C1W]] 0 1) tx2C1W⟩) ∧
    (((applyBlueBlocks 1 spC1W [[tx1C1W, tx2C1W]]).2[0]?.bind (fun l => l[1]?)) =
      some ⟨tx2C1W, false⟩) :=
  ⟨applyBlueBlocks_acceptance 1 spC1W [[tx1C1W, tx2C1W]] 0 1 [tx1C1W, tx2C1W]
      tx2C1W (by decide) (by decide),
    by decide⟩

/-! ## C2 / C3 — GHOSTDAG `Run` (src/unnamed/part_000, package ghostdag)

A block node carries the data GHOSTDAG reads and writes. The store maps node
handles to their data; `isInPast` is the reachability oracle
(`reachabilityTree.IsInPast`, whose implementation is outside the sources).
`dagconfig.KType` is `uint8`, so KType arithmetic is mod 256; blue scores are
`uint64`, mod 2^64. Loops whose termination rests on DAG finiteness
(the BFS queue, the selected-parent chain walk) take a fuel parameter;
exhausted fuel is an error (`none`), which the theorems exclude by
conditioning on a successful run. -/

structure NodeData where
  hash : Nat
  parents : List Nat
  blueScore : Nat
  selectedParent : Option Nat
  blues : List Nat
  bluesAnticoneSizes : List (Nat × Nat)

abbrev Store := Nat → NodeData

/-- Modelled from the spec: `blocknode.BlockNodeSet.Bluest` is not among the
sources; per the spec (§4.3), the selected parent is the parent with the
highest blue score, ties broken by block hash. -/
def bluest (store : Store) : List Nat → Option Nat
  | [] => none
  | p :: rest =>
    some (rest.foldl
      (fun best q =>
        if (store best).blueScore < (store q).blueScore ∨
            ((store best).blueScore = (store q).blueScore ∧
              (store q).hash < (store best).hash)
        then q else best) p)

/-- Modelled from the spec: `blocknode.Less` orders nodes by
(blue score, hash) ascending (§4.3 step 3). -/
def nodeLess (store : Store) (a b : Nat) : Bool :=
  (store a).blueScore < (store b).blueScore ||
    ((store a).blueScore == (store b).blueScore && (store a).hash < (store b).hash)

def insertSorted (store : Store) (x : Nat) : List Nat → List Nat
  | [] => [x]
  | y :: rest =>
    if nodeLess store x y then x :: y :: rest else y :: insertSorted store x rest

/-- The `sort.Slice` call of `Run`: sort the anticone by `Less`. -/
def sortNodes (store : Store) : List Nat → List Nat
  | [] => []
  | x :: rest => insertSorted store x (sortNodes store rest)

/-- Accumulator of the `selectedParentAnticone` BFS: the anticone set, the
selected parent's known past, the anticone slice and the queue additions. -/
structure BfsAcc where
  aset : List Nat
  spPast : List Nat
  slice : List Nat
  qadd : List Nat

/-- Body of the parent loop inside the BFS (part_000 lines 162-177). -/
def spAnticoneInner (store : Store) (isInPast : Nat → Nat → Bool) (sp : Nat)
    (current : Nat) (acc : BfsAcc) : BfsAcc :=
  (store current).parents.foldl
    (fun a parent =>
      if a.aset.contains parent || a.spPast.contains parent then a
      else if isInPast parent sp then { a with spPast := a.spPast ++ [parent] }
      else
        { a with
          aset := a.aset ++ [parent],
          slice := a.slice ++ [parent],
          qadd := a.qadd ++ [parent] })
    acc

/-- Queue-processing loop of the BFS (part_000 lines 157-178), fuelled. -/
def spAnticoneLoop (store : Store) (isInPast : Nat → Nat → Bool) (sp : Nat) :
    Nat → List Nat → List Nat → List Nat → List Nat → Option (List Nat)
  | 0, queue, _, _, slice => if queue.isEmpty then some slice else none
  | _ + 1, [], _, _, slice => some slice
  | fuel + 1, current :: rest, aset, spPast, slice =>
    let r := spAnticoneInner store isInPast sp current ⟨aset, spPast, slice, []⟩
    spAnticoneLoop store isInPast sp fuel (rest ++ r.qadd) r.aset r.spPast r.slice

/-- `selectedParentAnticone` (part_000 lines 143-180): queue every parent of
the new node other than the selected parent, then BFS, pruning nodes in the
selected parent's past. -/
def spAnticone (store : Store) (isInPast : Nat → Nat → Bool)
    (nodeParents : List Nat) (sp : Nat) (fuel : Nat) : Option (List Nat) :=
  let init := nodeParents.foldl
    (fun a parent =>
      if parent == sp then a
      else
        { a with
          aset := a.aset ++ [parent],
          slice := a.slice ++ [parent],
          qadd := a.qadd ++ [parent] })
    (⟨[], [], [], []⟩ : BfsAcc)
  spAnticoneLoop store isInPast sp fuel init.qadd init.aset init.spPast init.slice

/-- Modelled from the spec: `blocknode.BlueAnticoneSize(block, newNode)` is
not among the sources; per the spec (§4.3 step 4) the stored blue-anticone
size of `block` is inherited along the selected-parent chain of the new node,
the first entry found terminating the walk; no entry found is an error.
The walk below the new node, fuelled. -/
def blueAnticoneSizeWalk (store : Store) (block : Nat) :
    Nat → Option Nat → Option Nat
  | _, none => none
  | 0, some _ => none
  | fuel + 1, some n =>
    match lookupA block (store n).bluesAnticoneSizes with
    | some v => some v
    | none => blueAnticoneSizeWalk store block fuel (store n).selectedParent

/-- `BlueAnticoneSize(block, newNode)`: the new node's own (in-progress) map
first, then the chain from its selected parent. -/
def blueAnticoneSize (store : Store) (newSizes : List (Nat × Nat))
    (newSP : Option Nat) (block : Nat) (fuel : Nat) : Option Nat :=
  match lookupA block newSizes with
  | some v => some v
  | none => blueAnticoneSizeWalk store block fuel newSP

/-- Outcome of scanning one chain block's blues list for a candidate. -/
inductive ChkRes where
  | cont (cbas : List (Nat × Nat)) (cas : Nat)
  | reject
  | err

/-- The `for _, block := range chainBlock.Blues()` loop (part_000 lines
82-114): skip blues in the candidate's past; record the stored blue-anticone
size; `candidateAnticoneSize++` in `uint8`; reject on a k-cluster violation;
a stored size above k is a hard error. -/
def checkBlues (store : Store) (isInPast : Nat → Nat → Bool) (k : Nat)
    (newSizes : List (Nat × Nat)) (newSP : Option Nat) (szFuel : Nat) (c : Nat) :
    List Nat → List (Nat × Nat) → Nat → ChkRes
  | [], cbas, cas => .cont cbas cas
  | b :: rest, cbas, cas =>
    if isInPast b c then
      checkBlues store isInPast k newSizes newSP szFuel c rest cbas cas
    else
      match blueAnticoneSize store newSizes newSP b szFuel with
      | none => .err
      | some v =>
        let cbas2 := insertA b v cbas
        let cas2 := (cas + 1) % 256
        if k < cas2 then .reject
        else if v = k then .reject
        else if k < v then .err
        else checkBlues store isInPast k newSizes newSP szFuel c rest cbas2 cas2

/-- The `for chainBlock := ...` walk (part_000 lines 65-115) below the new
node: break (candidate still possibly blue) once the chain block is in the
candidate's past; otherwise scan its blues and step to its selected parent.
Returns (possiblyBlue, candidate sizes, candidate anticone size). -/
def checkChain (store : Store) (isInPast : Nat → Nat → Bool) (k : Nat)
    (newSizes : List (Nat × Nat)) (newSP : Option Nat) (szFuel : Nat) (c : Nat) :
    Nat → Option Nat → List (Nat × Nat) → Nat →
      Option (Bool × List (Nat × Nat) × Nat)
  | 0, _, _, _ => none
  | _ + 1, none, _, _ => none
  | fuel + 1, some cb, cbas, cas =>
    if isInPast cb c then some (true, cbas, cas)
    else
      match checkBlues store isInPast k newSizes newSP szFuel c
          (store cb).blues cbas cas with
      | .err => none
      | .reject => some (false, cbas, cas)
      | .cont cbas2 cas2 =>
        checkChain store isInPast k newSizes newSP szFuel c fuel
          (store cb).selectedParent cbas2 cas2

/-- One candidate check: the first chain block is the new node itself (its
blues are the in-progress list, and it is never in the candidate's past);
then the walk continues from the new node's selected parent. -/
def checkCandidate (store : Store) (isInPast : Nat → Nat → Bool) (k : Nat)
    (newBlues : List Nat) (newSizes : List (Nat × Nat)) (newSP : Option Nat)
    (szFuel chainFuel : Nat) (c : Nat) :
    Option (Bool × List (Nat × Nat) × Nat) :=
  match checkBlues store isInPast k newSizes newSP szFuel c newBlues [] 0 with
  | .err => none
  | .reject => some (false, [], 0)
  | .cont cbas cas =>
    checkChain store isInPast k newSizes newSP szFuel c chainFuel newSP cbas cas

/-- The new node's in-progress coloring: its blues and blues-anticone sizes. -/
structure RunState where
  blues : List Nat
  sizes : List (Nat × Nat)

/-- Admitting a blue candidate (part_000 lines 117-123): append to blues, set
its anticone size, and bump the affected blues' stored sizes (`uint8`). -/
def admitCandidate (st : RunState) (c cas : Nat)
    (cbas : List (Nat × Nat)) : RunState :=
  ⟨st.blues ++ [c],
    cbas.foldl (fun acc bv => insertA bv.1 ((bv.2 + 1) % 256) acc)
      (insertA c cas st.sizes)⟩

/-- The candidate loop of `Run` (part_000 lines 56-131): check each candidate
in sorted order; on admission stop once `KType(len(blues)) == K+1`
(`uint8` comparison, hence the mod-256 on both sides). -/
def processCandidates (store : Store) (isInPast : Nat → Nat → Bool) (k : Nat)
    (newSP : Option Nat) (szFuel chainFuel : Nat) :
    List Nat → RunState → Option RunState
  | [], st => some st
  | c :: rest, st =>
    match checkCandidate store isInPast k st.blues st.sizes newSP
        szFuel chainFuel c with
    | none => none
    | some (true, cbas, cas) =>
      let st2 := admitCandidate st c cas cbas
      if st2.blues.length % 256 = (k + 1) % 256 then some st2
      else processCandidates store isInPast k newSP szFuel chainFuel rest st2
    | some (false, _, _) =>
      processCandidates store isInPast k newSP szFuel chainFuel rest st

/-- The data `Run` writes into the new node, plus the returned anticone. -/
structure RunOut where
  selectedParent : Nat
  blues : List Nat
  bluesAnticoneSizes : List (Nat × Nat)
  blueScore : Nat
  selectedParentAnticone : List Nat
deriving DecidableEq

/-- `GHOSTDAG.Run` (part_000 lines 42-135): pick the bluest parent as
selected parent, seed blues = [selectedParent] and its anticone size 0,
compute and sort the selected-parent anticone, run the candidate loop, and
set `blueScore = selectedParent.blueScore + uint64(len(blues))`. -/
def ghostdagRun (store : Store) (isInPast : Nat → Nat → Bool) (k : Nat)
    (nodeParents : List Nat) (bfsFuel szFuel chainFuel : Nat) : Option RunOut :=
  (bluest store nodeParents).bind fun sp =>
  (spAnticone store isInPast nodeParents sp bfsFuel).bind fun ac =>
  (processCandidates store isInPast k (some sp) szFuel chainFuel
      (sortNodes store ac) ⟨[sp], [(sp, 0)]⟩).map fun st =>
  ⟨sp, st.blues, st.sizes,
    ((store sp).blueScore + st.blues.length) % 2 ^ 64, ac⟩

/-- Modelled from the spec: the genesis block node ("Genesis has empty
parents, blue-score 0, no selected parent, status `valid`"); block-node
construction (`blocknode`/`InitBlockNode`) is not among the sources. With no
selected parent there are no blues, so the blues list is empty. -/
def genesisNodeData : NodeData := ⟨0, [], 0, none, [], []⟩

theorem mem_insertA_self {α β : Type} [DecidableEq α] (key : α) (v : β) :
    ∀ (l : List (α × β)), (key, v) ∈ insertA key v l := by
  intro l
  induction l with
  | nil => simp [insertA]
  | cons p rest ih =>
    obtain ⟨k1, w⟩ := p
    by_cases hk : k1 = key
    · simp [insertA, hk]
    · simp only [insertA, if_neg hk]
      exact List.mem_cons.mpr (Or.inr ih)

theorem mem_insertA_of_ne {α β : Type} [DecidableEq α] {key : α} (v : β)
    {p : α × β} (hne : p.1 ≠ key) :
    ∀ {l : List (α × β)}, p ∈ l → p ∈ insertA key v l := by
  intro l
  induction l with
  | nil => intro h; cases h
  | cons q rest ih =>
    obtain ⟨k1, w⟩ := q
    intro h
    by_cases hk : k1 = key
    · subst hk
      rcases List.mem_cons.mp h with h1 | h1
      · exact absurd (h1 ▸ rfl : p.1 = k1) hne
      · simp only [insertA, if_pos rfl]
        exact List.mem_cons.mpr (Or.inr h1)
    · simp only [insertA, if_neg hk]
      rcases List.mem_cons.mp h with h1 | h1
      · exact List.mem_cons.mpr (Or.inl h1)
      · exact List.mem_cons.mpr (Or.inr (ih h1))

theorem blueAnticoneSize_self (store : Store) {newSizes : List (Nat × Nat)}
    (newSP : Option Nat) (fuel : Nat) {sp s : Nat}
    (hs : lookupA sp newSizes = some s) :
    blueAnticoneSize store newSizes newSP sp fuel = some s := by
  unfold blueAnticoneSize
  rw [hs]

/-- Through a blues scan that continues, every entry the candidate map holds
for the selected parent keeps the value stored for it in the new node's map,
and the selected parent stays present once recorded. -/
theorem checkBlues_PQ (store : Store) (isInPast : Nat → Nat → Bool) (k : Nat)
    (newSizes : List (Nat × Nat)) (newSP : Option Nat) (szFuel : Nat)
    (c sp s : Nat) (hs : lookupA sp newSizes = some s) :
    ∀ (blues : List Nat) (cbas : List (Nat × Nat)) (cas : Nat)
      (cbas2 : List (Nat × Nat)) (cas2 : Nat),
      checkBlues store isInPast k newSizes newSP szFuel c blues cbas cas =
        ChkRes.cont cbas2 cas2 →
      (∀ v, (sp, v) ∈ cbas → v = s) → (sp, s) ∈ cbas →
      (∀ v, (sp, v) ∈ cbas2 → v = s) ∧ (sp, s) ∈ cbas2 := by
  intro blues
  induction blues with
  | nil =>
    intro cbas cas cbas2 cas2 h hP hQ
    simp only [checkBlues] at h
    cases h
    exact ⟨hP, hQ⟩
  | cons b rest ih =>
    intro cbas cas cbas2 cas2 h hP hQ
    simp only [checkBlues] at h
    split at h
    next hbc =>
      exact ih _ _ _ _ h hP hQ
    next hbc =>
      split at h
      next hbas => cases h
      next v hbas =>
        split at h
        next => cases h
        next hcas =>
          split at h
          next => cases h
          next hvk =>
            split at h
            next => cases h
            next hkv =>
              have hP2 : ∀ w, (sp, w) ∈ insertA b v cbas → w = s := by
                intro w hw
                rcases mem_insertA hw with h4 | h4
                · have hbsp : sp = b := congrArg Prod.fst h4
                  have hws : w = v := congrArg Prod.snd h4
                  have hvs : v = s := by
                    rw [← hbsp] at hbas
                    have hx := blueAnticoneSize_self store newSP szFuel hs
                    exact Option.some_inj.mp (hbas.symm.trans hx)
                  rw [hws, hvs]
                · exact hP w h4
              have hQ2 : (sp, s) ∈ insertA b v cbas := by
                by_cases hb : b = sp
                · subst hb
                  have hvs : v = s := by
                    have hx := blueAnticoneSize_self store newSP szFuel hs
                    exact Option.some_inj.mp (hbas.symm.trans hx)
                  rw [← hvs]
                  exact mem_insertA_self b v cbas
                · exact mem_insertA_of_ne v (fun hc => hb hc.symm) hQ
              exact ih _ _ _ _ h hP2 hQ2

/-- The chain walk preserves the selected-parent facts of `checkBlues_PQ`
whenever it ends with the candidate still possibly blue. -/
theorem checkChain_PQ (store : Store) (isInPast : Nat → Nat → Bool) (k : Nat)
    (newSizes : List (Nat × Nat)) (newSP : Option Nat) (szFuel : Nat)
    (c sp s : Nat) (hs : lookupA sp newSizes = some s) :
    ∀ (fuel : Nat) (chain : Option Nat) (cbas : List (Nat × Nat)) (cas : Nat)
      (cbas2 : List (Nat × Nat)) (cas2 : Nat),
      checkChain store isInPast k newSizes newSP szFuel c fuel chain cbas cas =
        some (true, cbas2, cas2) →
      (∀ v, (sp, v) ∈ cbas → v = s) → (sp, s) ∈ cbas →
      (∀ v, (sp, v) ∈ cbas2 → v = s) ∧ (sp, s) ∈ cbas2 := by
  intro fuel
  induction fuel with
  | zero =>
    intro chain cbas cas cbas2 cas2 h
    simp only [checkChain] at h
    exact Option.noConfusion h
  | succ f ih =>
    intro chain cbas cas cbas2 cas2 h hP hQ
    cases chain with
    | none =>
      simp only [checkChain] at h
      exact Option.noConfusion h
    | some cb =>
      simp only [checkChain] at h
      split at h
      · have h2 : cbas = cbas2 ∧ cas = cas2 := by
          have := Option.some_inj.mp h
          exact ⟨congrArg (fun t => t.2.1) this, congrArg (fun t => t.2.2) this⟩
        rw [← h2.1]
        exact ⟨hP, hQ⟩
      · split at h
        next hcb => exact Option.noConfusion h
        next hcb => simp at h
        next cbas3 cas3 hcb =>
          have hPQ3 := checkBlues_PQ store isInPast k newSizes newSP szFuel
            c sp s hs _ _ _ _ _ hcb hP hQ
          exact ih _ _ _ _ _ h hPQ3.1 hPQ3.2

/-- Bumping the stored sizes leaves keys outside the candidate map alone. -/
theorem fold_bump_preserve (sp : Nat) :
    ∀ (l : List (Nat × Nat)) (base : List (Nat × Nat)),
      (∀ v, (sp, v) ∉ l) →
      lookupA sp
        (l.foldl (fun acc bv => insertA bv.1 ((bv.2 + 1) % 256) acc) base) =
        lookupA sp base := by
  intro l
  induction l with
  | nil => intro base _; rfl
  | cons bv rest ih =>
    intro base hno
    obtain ⟨b, v⟩ := bv
    have hb : b ≠ sp := by
      intro hc
      subst hc
      exact hno v (List.mem_cons.mpr (Or.inl rfl))
    rw [List.foldl_cons,
      ih _ (fun w hw => hno w (List.mem_cons.mpr (Or.inr hw)))]
    exact lookupA_insertA_ne _ _ (fun hc => hb hc.symm)

/-- After the admission bump, the selected parent's stored size is one more
than the size the candidate map recorded for it. -/
theorem bump_lookup (sp s : Nat) :
    ∀ (cbas : List (Nat × Nat)) (base : List (Nat × Nat)),
      (∀ v, (sp, v) ∈ cbas → v = s) → (sp, s) ∈ cbas →
      lookupA sp
        (cbas.foldl (fun acc bv => insertA bv.1 ((bv.2 + 1) % 256) acc) base) =
        some ((s + 1) % 256) := by
  intro cbas
  induction cbas with
  | nil => intro base _ hQ; cases hQ
  | cons bv rest ih =>
    intro base hP hQ
    obtain ⟨b, v⟩ := bv
    rw [List.foldl_cons]
    by_cases hmem : (sp, s) ∈ rest
    · exact ih _ (fun w hw => hP w (List.mem_cons.mpr (Or.inr hw))) hmem
    · have hbs : (sp, s) = (b, v) := by
        rcases List.mem_cons.mp hQ with h1 | h1
        · exact h1
        · exact absurd h1 hmem
      have hb : sp = b := congrArg Prod.fst hbs
      have hv : s = v := congrArg Prod.snd hbs
      subst hb
      subst hv
      have hrest : ∀ w, (sp, w) ∉ rest := by
        intro w hw
        have hws : w = s := hP w (List.mem_cons.mpr (Or.inr hw))
        rw [hws] at hw
        exact hmem hw
      rw [fold_bump_preserve sp rest _ hrest]
      exact lookupA_insertA_self _ _ _

/-- An admitted candidate was charged for the selected parent: the selected
parent heads the new node's blues, is never in the candidate's past, so it is
the first block scanned; admission therefore requires its stored size `s` to
be strictly below `k`, and the candidate map records exactly `s` for it. -/
theorem checkCandidate_admitted (store : Store) (isInPast : Nat → Nat → Bool)
    (k : Nat) (restBlues : List Nat) (newSizes : List (Nat × Nat))
    (newSP : Option Nat) (szFuel chainFuel : Nat) (c sp s : Nat)
    (cbas : List (Nat × Nat)) (cas : Nat)
    (hs : lookupA sp newSizes = some s)
    (hspc : isInPast sp c = false)
    (hres : checkCandidate store isInPast k (sp :: restBlues) newSizes newSP
      szFuel chainFuel c = some (true, cbas, cas)) :
    s < k ∧ (sp, s) ∈ cbas ∧ (∀ v, (sp, v) ∈ cbas → v = s) := by
  unfold checkCandidate at hres
  cases hcb0 : checkBlues store isInPast k newSizes newSP szFuel c
      (sp :: restBlues) [] 0 with
  | err =>
    rw [hcb0] at hres
    exact Option.noConfusion hres
  | reject =>
    rw [hcb0] at hres
    have hcontra : ((false, ([] : List (Nat × Nat)), (0 : Nat)) : Bool × List (Nat × Nat) × Nat) =
        (true, cbas, cas) := Option.some_inj.mp hres
    exact Bool.noConfusion (congrArg Prod.fst hcontra)
  | cont cbas1 cas1 =>
    rw [hcb0] at hres
    simp only [checkBlues] at hcb0
    split at hcb0
    next hbc => rw [hspc] at hbc; exact Bool.noConfusion hbc
    next hbc =>
      split at hcb0
      next hbas => exact ChkRes.noConfusion hcb0
      next v hbas =>
        have hvs : v = s := by
          have hx := blueAnticoneSize_self store newSP szFuel hs
          exact Option.some_inj.mp (hbas.symm.trans hx)
        subst hvs
        split at hcb0
        next => exact ChkRes.noConfusion hcb0
        next hcas =>
          split at hcb0
          next => exact ChkRes.noConfusion hcb0
          next hvk =>
            split at hcb0
            next => exact ChkRes.noConfusion hcb0
            next hkv =>
              have hsltk : v < k := by omega
              have hP0 : ∀ w, (sp, w) ∈ insertA sp v [] → w = v := by
                intro w hw
                rcases mem_insertA hw with h1 | h1
                · exact congrArg Prod.snd h1
                · cases h1
              have hQ0 : (sp, v) ∈ insertA sp v [] := mem_insertA_self sp v []
              have hPQ1 := checkBlues_PQ store isInPast k newSizes newSP szFuel
                c sp v hs _ _ _ _ _ hcb0 hP0 hQ0
              have hPQ2 := checkChain_PQ store isInPast k newSizes newSP szFuel
                c sp v hs _ _ _ _ _ _ hres hPQ1.1 hPQ1.2
              exact ⟨hsltk, hPQ2.2, hPQ2.1⟩

/-- Invariant carried through the candidate loop: the selected parent heads
the blues, and its stored blue-anticone size equals `|blues| - 1 ≤ k`. -/
def runInv (k sp : Nat) (st : RunState) : Prop :=
  st.blues.head? = some sp ∧ 1 ≤ st.blues.length ∧
  lookupA sp st.sizes = some (st.blues.length - 1) ∧ st.blues.length - 1 ≤ k

theorem processCandidates_inv (store : Store) (isInPast : Nat → Nat → Bool)
    (k sp : Nat) (szFuel chainFuel : Nat) (hk : k ≤ 255) :
    ∀ (cands : List Nat) (st st2 : RunState),
      (∀ c ∈ cands, isInPast sp c = false) →
      runInv k sp st →
      processCandidates store isInPast k (some sp) szFuel chainFuel cands st =
        some st2 →
      runInv k sp st2 := by
  intro cands
  induction cands with
  | nil =>
    intro st st2 _ hInv h
    simp only [processCandidates] at h
    cases h
    exact hInv
  | cons c rest ih =>
    intro st st2 hcands hInv h
    have hctail : ∀ c2 ∈ rest, isInPast sp c2 = false :=
      fun c2 hc2 => hcands c2 (List.mem_cons.mpr (Or.inr hc2))
    have hchead : isInPast sp c = false := hcands c (List.mem_cons.mpr (Or.inl rfl))
    simp only [processCandidates] at h
    split at h
    next hcc => exact Option.noConfusion h
    next cbas cas hcc =>
      obtain ⟨hhead, hlen, hsz, hbound⟩ := hInv
      obtain ⟨restB, hbl⟩ : ∃ restB, st.blues = sp :: restB := by
        cases hbl2 : st.blues with
        | nil => rw [hbl2] at hhead; cases hhead
        | cons b restB =>
          rw [hbl2] at hhead
          have hb : b = sp := by simpa using hhead
          exact ⟨restB, by rw [hb]⟩
      rw [hbl] at hcc
      have hadm := checkCandidate_admitted store isInPast k restB st.sizes
        (some sp) szFuel chainFuel c sp (st.blues.length - 1) cbas cas
        hsz hchead hcc
      have hInv2 : runInv k sp (admitCandidate st c cas cbas) := by
        refine ⟨?_, ?_, ?_, ?_⟩
        · simp only [admitCandidate, hbl]
          rfl
        · simp [admitCandidate]
        · have hbump := bump_lookup sp (st.blues.length - 1) cbas
            (insertA c cas st.sizes) hadm.2.2 hadm.2.1
          have hmod : (st.blues.length - 1 + 1) % 256 = st.blues.length - 1 + 1 :=
            Nat.mod_eq_of_lt (by omega)
          rw [hmod] at hbump
          simp only [admitCandidate]
          rw [hbump]
          have : st.blues.length - 1 + 1 = (st.blues ++ [c]).length - 1 := by
            rw [List.length_append]
            simp
            omega
          rw [this]
        · simp only [admitCandidate, List.length_append]
          have := hadm.1
          simp
          omega
      split at h
      · cases h
        exact hInv2
      · exact ih _ _ hctail hInv2 h
    next hcc =>
      exact ih _ _ hctail hInv h

/-- C2: whenever GHOSTDAG `Run` succeeds — for any store, any reachability
oracle that never places the selected parent in a candidate's past (true of
real ancestry, since the candidates are in the selected parent's anticone),
and any `uint8` parameter k — the computed blues list has the selected parent
at position 0 and at most k+1 elements. -/
theorem ghostdag_blues_invariant (store : Store) (isInPast : Nat → Nat → Bool)
    (k : Nat) (parents : List Nat) (bfsFuel szFuel chainFuel : Nat)
    (out : RunOut) (hk : k ≤ 255)
    (hanticone : ∀ sp ac, bluest store parents = some sp →
      spAnticone store isInPast parents sp bfsFuel = some ac →
      ∀ c ∈ sortNodes store ac, isInPast sp c = false)
    (hrun : ghostdagRun store isInPast k parents bfsFuel szFuel chainFuel =
      some out) :
    out.blues.head? = some out.selectedParent ∧ out.blues.length ≤ k + 1 := by
  unfold ghostdagRun at hrun
  cases hsp : bluest store parents with
  | none => rw [hsp] at hrun; exact Option.noConfusion hrun
  | some sp =>
    rw [hsp, Option.some_bind] at hrun
    cases hac : spAnticone store isInPast parents sp bfsFuel with
    | none => rw [hac] at hrun; exact Option.noConfusion hrun
    | some ac =>
      rw [hac, Option.some_bind] at hrun
      cases hproc : processCandidates store isInPast k (some sp) szFuel
          chainFuel (sortNodes store ac) ⟨[sp], [(sp, 0)]⟩ with
      | none => rw [hproc] at hrun; exact Option.noConfusion hrun
      | some st =>
        rw [hproc] at hrun
        simp only [Option.map_some'] at hrun
        have hout := (Option.some_inj.mp hrun).symm
        have hInv0 : runInv k sp ⟨[sp], [(sp, 0)]⟩ := by
          refine ⟨rfl, by simp, ?_, by simp⟩
          simp [lookupA]
        have hInv := processCandidates_inv store isInPast k sp szFuel chainFuel
          hk (sortNodes store ac) _ st (hanticone sp ac hsp hac) hInv0 hproc
        obtain ⟨hhead, hlen, hsz, hbound⟩ := hInv
        subst hout
        refine ⟨hhead, ?_⟩
        show st.blues.length ≤ k + 1
        omega

/-- C3: whenever GHOSTDAG `Run` succeeds and the `uint64` addition does not
wrap, the new node's blue score equals its selected parent's blue score plus
the number of its blues; and the genesis node (spec-modelled, with no
selected parent contributing blue score 0) satisfies the same equation with
its empty blues list. -/
theorem ghostdag_blue_score (store : Store) (isInPast : Nat → Nat → Bool)
    (k : Nat) (parents : List Nat) (bfsFuel szFuel chainFuel : Nat)
    (out : RunOut)
    (hrun : ghostdagRun store isInPast k parents bfsFuel szFuel chainFuel =
      some out)
    (hbound : (store out.selectedParent).blueScore + out.blues.length < 2 ^ 64) :
    out.blueScore = (store out.selectedParent).blueScore + out.blues.length ∧
    genesisNodeData.blueScore = 0 ∧ genesisNodeData.selectedParent = none ∧
    genesisNodeData.blueScore = 0 + genesisNodeData.blues.length := by
  refine ⟨?_, rfl, rfl, rfl⟩
  unfold ghostdagRun at hrun
  cases hsp : bluest store parents with
  | none => rw [hsp] at hrun; exact Option.noConfusion hrun
  | some sp =>
    rw [hsp, Option.some_bind] at hrun
    cases hac : spAnticone store isInPast parents sp bfsFuel with
    | none => rw [hac] at hrun; exact Option.noConfusion hrun
    | some ac =>
      rw [hac, Option.some_bind] at hrun
      cases hproc : processCandidates store isInPast k (some sp) szFuel
          chainFuel (sortNodes store ac) ⟨[sp], [(sp, 0)]⟩ with
      | none => rw [hproc] at hrun; exact Option.noConfusion hrun
      | some st =>
        rw [hproc] at hrun
        simp only [Option.map_some'] at hrun
        have hout := (Option.some_inj.mp hrun).symm
        subst hout
        exact Nat.mod_eq_of_lt hbound

/-- Store used by the C2/C3 witnesses: a lone genesis-like node 0. -/
def storeGW : Store := fun _ => ⟨0, [], 0, none, [], []⟩

/-- `ghostdagRun` output for a new node over parent {0} with k = 1. -/
def outGW : RunOut := ⟨0, [0], [(0, 0)], 1, []⟩

/-- Concrete instantiation of `ghostdag_blues_invariant`: one parent, k = 1,
an oracle denying all ancestry; the run yields blues = [0] with the selected
parent first and within the k+1 bound. -/
theorem ghostdag_blues_invariant_witness :
    outGW.blues.head? = some outGW.selectedParent ∧ outGW.blues.length ≤ 1 + 1 :=
  ghostdag_blues_invariant storeGW (fun _ _ => false) 1 [0] 3 3 3 outGW
    (by decide) (fun _ _ _ _ _ _ => rfl) rfl

/-- Concrete instantiation of `ghostdag_blue_score` on the same run:
blue score 1 = 0 + |[0]|, and the genesis equations. -/
theorem ghostdag_blue_score_witness :
    outGW.blueScore = (storeGW outGW.selectedParent).blueScore + outGW.blues.length ∧
    genesisNodeData.blueScore = 0 ∧ genesisNodeData.selectedParent = none ∧
    genesisNodeData.blueScore = 0 + genesisNodeData.blues.length :=
  ghostdag_blue_score storeGW (fun _ _ => false) 1 [0] 3 3 3 outGW rfl
    (by decide)
